import Mathlib

set_option maxHeartbeats 1000000

namespace LagoFront

/-!
Shallow embedding of the lago-front administrative console logic:
the credit-note creation form (tri-state fee checkboxes, submit guard,
payment-status badge), the webhook-logs page (grouping, selection,
infinite scroll), the customer-wallets list, the plan-details charge
split, and the Moneyhash/Netsuite integration pages (delete-dialog
navigation and permission gates).
-/

/-- A JavaScript value of type `boolean | undefined | null`, the value space of
the credit-note checkbox aggregation. -/
inductive JSBool where
  | undefined
  | null
  | bool (b : Bool)
deriving DecidableEq

/-- `determineCheckboxValue` from the credit-note creation page: combines the
running aggregate with one more checkbox value. -/
def determineCheckboxValue (initialValue : JSBool) (additionnalValue : JSBool) : JSBool :=
  if initialValue = .undefined ∨ additionnalValue = .undefined then .undefined
  else if initialValue = .null then additionnalValue
  else if initialValue ≠ additionnalValue then .undefined
  else additionnalValue

/-- One child of a subscription's `fees` record in the credit-note form: a flat
fee (`FromFee`, whose `checked` flag is `boolean | undefined`) or a grouped fee
whose `grouped` record holds the leaf fees' `checked` flags. -/
inductive FeeChild where
  | fromFee (checked : Option Bool)
  | groupedFee (grouped : List (Option Bool))
deriving DecidableEq

/-- A `boolean | undefined` checked flag as the JavaScript value it denotes. -/
def jsOfOpt : Option Bool → JSBool
  | some b => .bool b
  | none => .undefined

/-- The inner loop of `checkboxGroupValue`: the fold of a grouped fee's
`checked` flags, seeded with `null`. -/
def groupFoldValue (grouped : List (Option Bool)) : JSBool :=
  grouped.foldl (fun groupValue c => determineCheckboxValue groupValue (jsOfOpt c)) .null

/-- One step of the `checkboxGroupValue` reducer over a subscription's children:
a child whose `checked` is a boolean (`typeof child.checked === 'boolean'`) is
combined directly; any other child is read as a grouped fee (`grouped || {}`),
so it contributes the fold of its group, which is `null` when the `grouped`
record is absent. -/
def processChild (value : JSBool) : FeeChild → JSBool
  | .fromFee (some b) => determineCheckboxValue value (.bool b)
  | .fromFee none => determineCheckboxValue value .null
  | .groupedFee grouped => determineCheckboxValue value (groupFoldValue grouped)

/-- The `value` field `checkboxGroupValue` computes for one subscription group:
the fold of `processChild` over the subscription's children, seeded with
`null`. -/
def subscriptionCheckboxValue (children : List FeeChild) : JSBool :=
  children.foldl processChild .null

/-- The contribution a single child makes to the subscription fold. -/
def childContribution : FeeChild → JSBool
  | .fromFee (some b) => .bool b
  | .fromFee none => .null
  | .groupedFee grouped => groupFoldValue grouped

/-- The `checked` flags of one child's leaf fees. -/
def childLeaves : FeeChild → List (Option Bool)
  | .fromFee checked => [checked]
  | .groupedFee grouped => grouped

/-- The `checked` flags of all leaf fees under a subscription, grouped leaves
included, in order. -/
def leaves : List FeeChild → List (Option Bool)
  | [] => []
  | .fromFee checked :: rest => checked :: leaves rest
  | .groupedFee grouped :: rest => grouped ++ leaves rest

/-- A child as the claim's amended reading needs it: a flat fee carries a
boolean `checked` flag, a grouped fee has at least one entry. -/
def wellFormedChild : FeeChild → Bool
  | .fromFee checked => checked.isSome
  | .groupedFee grouped => !grouped.isEmpty

/-- The claim's leaf-wise description of the aggregate checkbox value: `true`
when every leaf is checked, `false` when at least one leaf exists and none is
checked, `undefined` otherwise. -/
def claimedCheckboxValue (children : List FeeChild) : JSBool :=
  if ∀ leaf ∈ leaves children, leaf = some true then .bool true
  else if leaves children ≠ [] ∧ ∀ leaf ∈ leaves children, leaf = some false then .bool false
  else .undefined

/-- Tri-state summary of a list of combined values: `null` on the empty list,
a boolean when the entries agree on it, `undefined` otherwise. -/
def specAgg (xs : List JSBool) : JSBool :=
  if xs = [] then .null
  else if ∀ x ∈ xs, x = .bool true then .bool true
  else if ∀ x ∈ xs, x = .bool false then .bool false
  else .undefined

/-- The fold of `determineCheckboxValue` seeded with `null`. -/
def foldDet (xs : List JSBool) : JSBool :=
  xs.foldl determineCheckboxValue .null

/-- `InvoicePaymentStatusTypeEnum` of the GraphQL schema. -/
inductive InvoicePaymentStatusTypeEnum where
  | Succeeded
  | Pending
  | Failed
deriving DecidableEq

/-- The design system's status variants used by the credit-note page. -/
inductive StatusType where
  | success
  | default
  | warning
  | danger
deriving DecidableEq

/-- The props handed to the `Status` badge. -/
structure StatusProps where
  type : StatusType
  label : String
deriving DecidableEq

/-- `mapStatus` from the credit-note creation page: the badge shown for an
invoice's (optional) payment status. -/
def mapStatus : Option InvoicePaymentStatusTypeEnum → StatusProps
  | some .Succeeded => { type := .success, label := "succeeded" }
  | some .Pending => { type := .default, label := "pending" }
  | _ => { type := .warning, label := "failed" }

/-- The pagination metadata block of a GraphQL collection. -/
structure PaginationMetadata where
  currentPage : Int
  totalPages : Int
deriving DecidableEq

/-- `currentPage` with the destructuring default `0` for absent metadata. -/
def metaCurrentPage : Option PaginationMetadata → Int
  | some m => m.currentPage
  | none => 0

/-- `totalPages` with the destructuring default `0` for absent metadata. -/
def metaTotalPages : Option PaginationMetadata → Int
  | some m => m.totalPages
  | none => 0

/-- The `onBottom` handler of the webhook-logs `InfiniteScroll`: the page
number passed to `fetchMore`, or `none` when no fetch is issued. The guard is
`currentPage < totalPages && !isLoading`. -/
def webhookLogsOnBottomFetch (metadata : Option PaginationMetadata)
    (loadInFlight : Bool) : Option Int :=
  if metaCurrentPage metadata < metaTotalPages metadata ∧ loadInFlight = false then
    some (metaCurrentPage metadata + 1)
  else
    none

/-- The `onBottom` handler of the customer-wallets `InfiniteScroll`: the page
number passed to `fetchMore`, or `none` when no fetch is issued. The guard is
`currentPage < totalPages && !loading`. -/
def customerWalletsOnBottomFetch (metadata : Option PaginationMetadata)
    (loadInFlight : Bool) : Option Int :=
  if metaCurrentPage metadata < metaTotalPages metadata ∧ loadInFlight = false then
    some (metaCurrentPage metadata + 1)
  else
    none

/-- The part of a charge's billable metric the plan-details split reads. -/
structure BillableMetric where
  recurring : Bool
deriving DecidableEq

/-- A plan charge as the plan-details split reads it. -/
structure Charge where
  id : String
  billableMetric : BillableMetric
deriving DecidableEq

/-- The reducer of `PlanDetailsChargesSection`: pushes each charge onto
`meteredCharges` when its billable metric is not recurring, onto
`recurringCharges` otherwise. -/
def splitCharges (charges : List Charge) : List Charge × List Charge :=
  charges.foldl
    (fun acc charge =>
      if !charge.billableMetric.recurring then (acc.1 ++ [charge], acc.2)
      else (acc.1, acc.2 ++ [charge]))
    ([], [])

/-- `PlanDetailsChargesSection`'s `plan?.charges?.reduce(...) ?? {}`: both
lists are absent when the plan or its charge list is absent. -/
def planDetailsChargesSplit (charges : Option (List Charge)) :
    Option (List Charge × List Charge) :=
  charges.map splitCharges

/-- The two navigation targets of the Moneyhash details delete callback. -/
inductive IntegrationRoute where
  | moneyhashIntegrationRoute
  | integrationsRoute
deriving DecidableEq

/-- `PROVIDER_CONNECTION_LIMIT` from `MoneyhashIntegrationDetails`, also the
`limit` the details query is issued with. -/
def PROVIDER_CONNECTION_LIMIT : Nat := 2

/-- `data?.paymentProviders?.collection.length || 0`. -/
def providersCountOrZero (collection : Option (List String)) : Nat :=
  match collection with
  | some providers => providers.length
  | none => 0

/-- `deleteDialogCallback` of `MoneyhashIntegrationDetails`: where it
navigates after a delete, depending on the fetched provider collection. -/
def moneyhashDetailsDeleteTarget (collection : Option (List String)) : IntegrationRoute :=
  if PROVIDER_CONNECTION_LIMIT ≤ providersCountOrZero collection then
    .moneyhashIntegrationRoute
  else
    .integrationsRoute

/-- A Moneyhash payment provider connection as the list page reads it. -/
structure MoneyhashProvider where
  id : String
  name : String
  code : String
deriving DecidableEq

/-- A Netsuite integration connection as the list page reads it. -/
structure NetsuiteIntegration where
  id : String
  name : String
  code : String
deriving DecidableEq

/-- `MoneyhashIntegrations`: whether `deleteDialogCallback` is a callback
(rather than `undefined`), per `connections && connections.length === 1`. -/
def moneyhashDeleteCallbackDefined (connections : Option (List MoneyhashProvider)) : Bool :=
  match connections with
  | some list => decide (list.length = 1)
  | none => false

/-- `NetsuiteIntegrations`: whether `deleteDialogCallback` is a callback
(rather than `undefined`), per `connections && connections?.length === 1`. -/
def netsuiteDeleteCallbackDefined (connections : Option (List NetsuiteIntegration)) : Bool :=
  match connections with
  | some list => decide (list.length = 1)
  | none => false

/-- The permissions the claimed pages consult. -/
inductive Permission where
  | organizationIntegrationsCreate
  | organizationIntegrationsUpdate
  | organizationIntegrationsDelete
  | walletsCreate
  | walletsTopUp
  | walletsUpdate
  | walletsTerminate
deriving DecidableEq

/-- Modelled from the spec: the spec reduces this code to UI plumbing with
"permission checks"; the `usePermissions` hook itself is not among the source
files. `hasPermissions` is modelled as holding at least one of the listed
permissions, following its caller's own binding
`hasAnyPermissionsToShowActions`; every claimed property below only reads
single-permission calls or the "at least one" direction, so it does not
depend on the any-versus-all choice. -/
def hasPermissions (held : Permission → Bool) (ps : List Permission) : Bool :=
  ps.any held

/-- `canEditIntegration` of the Moneyhash pages. -/
def canEditIntegration (held : Permission → Bool) : Bool :=
  hasPermissions held [.organizationIntegrationsUpdate]

/-- `canDeleteIntegration` of the Moneyhash pages. -/
def canDeleteIntegration (held : Permission → Bool) : Bool :=
  hasPermissions held [.organizationIntegrationsDelete]

/-- `canCreateIntegration` of the Moneyhash list page. -/
def canCreateIntegration (held : Permission → Bool) : Bool :=
  hasPermissions held [.organizationIntegrationsCreate]

/-- The Moneyhash pages render their actions menu under
`canEditIntegration || canDeleteIntegration`. -/
def moneyhashActionsMenuRendered (held : Permission → Bool) : Bool :=
  canEditIntegration held || canDeleteIntegration held

/-- `hasAnyPermissionsToShowActions` of the customer-wallets list: the guard
of its custom action area. -/
def hasAnyPermissionsToShowActions (held : Permission → Bool) : Bool :=
  hasPermissions held [.walletsCreate, .walletsTopUp, .walletsUpdate, .walletsTerminate]

/-- The credit-note form state as its submit guard reads it: the selected
reason, and the verdicts of the four sub-schemas (`generateFeesSchema` and
friends are generated outside the sources, so they enter as booleans). -/
structure CreditNoteFormValues where
  reason : Option String
  feesValid : Bool
  addOnFeeValid : Bool
  creditFeeValid : Bool
  payBackValid : Bool

/-- yup's `string().required('')` on the `reason` field: a missing or empty
string is invalid. -/
def reasonFieldValid : Option String → Bool
  | some s => decide (s ≠ "")
  | none => false

/-- Modelled from the spec: form validity under the declared yup schema
(`object().shape` over `reason`, `fees`, `addOnFee`, `creditFee`,
`payBack`); the generated sub-schemas are not among the sources, so their
verdicts are the form state's boolean fields. -/
def creditNoteFormIsValid (values : CreditNoteFormValues) : Bool :=
  reasonFieldValid values.reason && values.feesValid && values.addOnFeeValid &&
    values.creditFeeValid && values.payBackValid

/-- The submit button's `disabled` prop: `!formikProps.isValid`. -/
def submitButtonDisabled (values : CreditNoteFormValues) : Bool :=
  !(creditNoteFormIsValid values)

/-- A webhook log as the grouping reads it. -/
structure WebhookLog where
  id : String
  createdAt : String
deriving DecidableEq

/-- `acc[date] = [...(acc[date] ? acc[date] : []), item]` on a string-keyed
object with insertion-ordered keys: append the item to the group of `date`
when the key exists, append a new singleton group otherwise. -/
def addToGroup : List (String × List WebhookLog) → String → WebhookLog →
    List (String × List WebhookLog)
  | [], date, item => [(date, [item])]
  | entry :: rest, date, item =>
    if entry.1 = date then (entry.1, entry.2 ++ [item]) :: rest
    else entry :: addToGroup rest date item

/-- The `groupedLogs` reducer of the webhook-logs page, with the
organization-timezone formatter `formatTimeOrgaTZ` passed in (the hook
providing it is not among the sources). -/
def groupedLogs (formatTimeOrgaTZ : String → String)
    (collection : Option (List WebhookLog)) : List (String × List WebhookLog) :=
  (collection.getD []).foldl
    (fun acc item => addToGroup acc (formatTimeOrgaTZ item.createdAt) item) []

/-- The group stored under a key, the empty list when the key is absent. -/
def groupGet : List (String × List WebhookLog) → String → List WebhookLog
  | [], _ => []
  | entry :: rest, date => if entry.1 = date then entry.2 else groupGet rest date

/-- The selection the webhook-logs `useEffect` establishes after a data
update: the first fetched log's id when the collection is non-empty,
no selection otherwise. -/
def selectedLogIdAfterUpdate (collection : Option (List WebhookLog)) : Option String :=
  if (collection.getD []).length ≠ 0 then ((collection.getD []).head?).map WebhookLog.id
  else none

/-! ## Theorems -/

/-- C10: `mapStatus` is total on its optional input: Succeeded maps to the
success/"succeeded" badge, Pending to default/"pending", and every other
input — Failed as well as an absent payment status — to warning/"failed". -/
theorem mapStatus_total_spec :
    mapStatus (some .Succeeded) = { type := .success, label := "succeeded" } ∧
    mapStatus (some .Pending) = { type := .default, label := "pending" } ∧
    mapStatus (some .Failed) = { type := .warning, label := "failed" } ∧
    mapStatus none = { type := .warning, label := "failed" } :=
  ⟨rfl, rfl, rfl, rfl⟩

/-- C9: after every data update of the webhook-logs page, the selected log id
is the id of the first fetched log when the collection is non-empty, and no
log is selected when the collection is empty or absent. -/
theorem webhookLogs_selection_first (log : WebhookLog) (rest : List WebhookLog) :
    selectedLogIdAfterUpdate (some (log :: rest)) = some log.id ∧
    selectedLogIdAfterUpdate (some []) = none ∧
    selectedLogIdAfterUpdate none = none := by
  refine ⟨?_, rfl, rfl⟩
  simp [selectedLogIdAfterUpdate]

/-- C7: the credit-note submit button is disabled exactly when the form state
is invalid under the declared schema, and the schema requires the reason
field, so no state without a selected reason can be submitted. -/
theorem creditNote_submit_guard (values : CreditNoteFormValues) :
    submitButtonDisabled values = !(creditNoteFormIsValid values) ∧
    (values.reason = none → submitButtonDisabled values = true) := by
  refine ⟨rfl, fun h => ?_⟩
  simp [submitButtonDisabled, creditNoteFormIsValid, reasonFieldValid, h]

/-- C6: the Moneyhash pages gate the edit action on
organizationIntegrationsUpdate, the delete action on
organizationIntegrationsDelete, the create button on
organizationIntegrationsCreate, and show no actions menu without update or
delete; the customer-wallets action area shows exactly when at least one of
the four wallet permissions is held. -/
theorem permissions_gate_actions (held : Permission → Bool) :
    canEditIntegration held = held .organizationIntegrationsUpdate ∧
    canDeleteIntegration held = held .organizationIntegrationsDelete ∧
    canCreateIntegration held = held .organizationIntegrationsCreate ∧
    moneyhashActionsMenuRendered held =
      (held .organizationIntegrationsUpdate || held .organizationIntegrationsDelete) ∧
    (hasAnyPermissionsToShowActions held = true ↔
      held .walletsCreate = true ∨ held .walletsTopUp = true ∨
        held .walletsUpdate = true ∨ held .walletsTerminate = true) := by
  refine ⟨?_, ?_, ?_, ?_, ?_⟩ <;>
    simp [canEditIntegration, canDeleteIntegration, canCreateIntegration,
      moneyhashActionsMenuRendered, hasAnyPermissionsToShowActions, hasPermissions]

/-- C5: on both integration list pages the delete dialog gets a post-delete
navigation callback exactly when the fetched connection list exists and has
exactly one connection. -/
theorem integrationsList_deleteCallback (mcs : Option (List MoneyhashProvider))
    (ncs : Option (List NetsuiteIntegration)) :
    (moneyhashDeleteCallbackDefined mcs = true ↔ ∃ l, mcs = some l ∧ l.length = 1) ∧
    (netsuiteDeleteCallbackDefined ncs = true ↔ ∃ l, ncs = some l ∧ l.length = 1) := by
  constructor
  · cases mcs <;> simp [moneyhashDeleteCallbackDefined]
  · cases ncs <;> simp [netsuiteDeleteCallbackDefined]

/-- C4: the Moneyhash details post-delete callback navigates to the Moneyhash
integrations list route exactly when the fetched provider collection (absent
counting as 0) has at least PROVIDER_CONNECTION_LIMIT = 2 entries, and to the
community integrations route otherwise. -/
theorem moneyhashDetails_deleteNavigation (collection : Option (List String)) :
    (moneyhashDetailsDeleteTarget collection = .moneyhashIntegrationRoute ↔
      2 ≤ providersCountOrZero collection) ∧
    (moneyhashDetailsDeleteTarget collection = .integrationsRoute ↔
      providersCountOrZero collection < 2) ∧
    providersCountOrZero none = 0 ∧
    PROVIDER_CONNECTION_LIMIT = 2 := by
  refine ⟨?_, ?_, rfl, rfl⟩ <;>
    · unfold moneyhashDetailsDeleteTarget PROVIDER_CONNECTION_LIMIT
      split <;> simp_all

theorem splitCharges_foldl (charges : List Charge) (m r : List Charge) :
    charges.foldl
      (fun acc charge =>
        if !charge.billableMetric.recurring then (acc.1 ++ [charge], acc.2)
        else (acc.1, acc.2 ++ [charge]))
      (m, r) =
    (m ++ charges.filter (fun c => !c.billableMetric.recurring),
      r ++ charges.filter (fun c => c.billableMetric.recurring)) := by
  induction charges generalizing m r with
  | nil => simp
  | cons c rest ih =>
    simp only [List.foldl_cons]
    by_cases hc : c.billableMetric.recurring
    · rw [if_neg (by simp [hc]), ih]
      simp [List.filter_cons, hc, List.append_assoc]
    · rw [if_pos (by simp [hc]), ih]
      simp [List.filter_cons, hc, List.append_assoc]

/-- C3: the plan-details charge section splits a present charge list into the
order-preserving sublist of charges whose billable metric is not recurring and
the order-preserving sublist of those whose billable metric is recurring, and
produces no lists when the plan or its charge list is absent. -/
theorem planDetailsCharges_partition (charges : List Charge) :
    planDetailsChargesSplit none = none ∧
    planDetailsChargesSplit (some charges) =
      some (charges.filter (fun c => !c.billableMetric.recurring),
        charges.filter (fun c => c.billableMetric.recurring)) := by
  refine ⟨rfl, ?_⟩
  have h := splitCharges_foldl charges [] []
  simp only [List.nil_append] at h
  exact congrArg some h

theorem groupGet_addToGroup (acc : List (String × List WebhookLog)) (date : String)
    (item : WebhookLog) (key : String) :
    groupGet (addToGroup acc date item) key =
      groupGet acc key ++ (if date = key then [item] else []) := by
  induction acc with
  | nil =>
    by_cases h : date = key <;> simp [addToGroup, groupGet, h]
  | cons entry rest ih =>
    simp only [addToGroup]
    by_cases h1 : entry.1 = date
    · rw [if_pos h1]
      by_cases h2 : entry.1 = key
      · have hdk : date = key := h1.symm.trans h2
        simp [groupGet, h2, hdk]
      · have hdk : ¬date = key := fun hd => h2 (h1.trans hd)
        simp [groupGet, h2, hdk]
    · rw [if_neg h1]
      by_cases h2 : entry.1 = key
      · have hdk : ¬date = key := fun hd => h1 (h2.trans hd.symm)
        simp [groupGet, h2, hdk]
      · simp [groupGet, h2, ih]

theorem addToGroup_keys (acc : List (String × List WebhookLog)) (date : String)
    (item : WebhookLog) :
    (addToGroup acc date item).map Prod.fst =
      if date ∈ acc.map Prod.fst then acc.map Prod.fst
      else acc.map Prod.fst ++ [date] := by
  induction acc with
  | nil => simp [addToGroup]
  | cons entry rest ih =>
    by_cases h1 : entry.1 = date
    · simp [addToGroup, h1]
    · have h1' : ¬date = entry.1 := fun hd => h1 hd.symm
      simp only [addToGroup, if_neg h1, List.map_cons, ih]
      by_cases hm : date ∈ rest.map Prod.fst
      · rw [if_pos hm, if_pos (List.mem_cons.mpr (Or.inr hm))]
      · rw [if_neg hm, if_neg ?_]
        · simp
        · intro hc
          rcases List.mem_cons.mp hc with hc | hc
          · exact h1' hc
          · exact hm hc

theorem addToGroup_keys_nodup (acc : List (String × List WebhookLog)) (date : String)
    (item : WebhookLog) (h : (acc.map Prod.fst).Nodup) :
    ((addToGroup acc date item).map Prod.fst).Nodup := by
  rw [addToGroup_keys]
  split
  · exact h
  · next hmem =>
    refine List.Nodup.append h (List.nodup_singleton date) ?_
    intro a ha hb
    rw [List.mem_singleton] at hb
    exact hmem (hb ▸ ha)

theorem groupGet_foldl (formatTimeOrgaTZ : String → String) (items : List WebhookLog)
    (acc : List (String × List WebhookLog)) (key : String) :
    groupGet
        (items.foldl (fun a i => addToGroup a (formatTimeOrgaTZ i.createdAt) i) acc) key =
      groupGet acc key ++ items.filter (fun i => decide (formatTimeOrgaTZ i.createdAt = key)) := by
  induction items generalizing acc with
  | nil => simp
  | cons i rest ih =>
    simp only [List.foldl_cons, List.filter_cons, ih, groupGet_addToGroup]
    by_cases h : formatTimeOrgaTZ i.createdAt = key <;>
      simp [h, List.append_assoc]

theorem keys_nodup_foldl (formatTimeOrgaTZ : String → String) (items : List WebhookLog)
    (acc : List (String × List WebhookLog)) (h : (acc.map Prod.fst).Nodup) :
    (((items.foldl (fun a i => addToGroup a (formatTimeOrgaTZ i.createdAt) i) acc)).map
      Prod.fst).Nodup := by
  induction items generalizing acc with
  | nil => exact h
  | cons i rest ih =>
    simp only [List.foldl_cons]
    exact ih _ (addToGroup_keys_nodup _ _ _ h)

/-- C8: the `groupedLogs` reducer groups a fetched collection by the
organization-timezone formatting of each log's creation timestamp: the group
of each key is exactly the order-preserving sublist of logs whose formatted
timestamp is that key, the group keys are pairwise distinct (so each log lands
in exactly one group), and an absent collection yields the empty grouping. -/
theorem webhookLogs_grouping (formatTimeOrgaTZ : String → String)
    (collection : Option (List WebhookLog)) (key : String) :
    groupGet (groupedLogs formatTimeOrgaTZ collection) key =
      (collection.getD []).filter
        (fun l => decide (formatTimeOrgaTZ l.createdAt = key)) ∧
    ((groupedLogs formatTimeOrgaTZ collection).map Prod.fst).Nodup ∧
    groupedLogs formatTimeOrgaTZ none = [] := by
  refine ⟨?_, ?_, rfl⟩
  · simpa [groupedLogs, groupGet] using
      groupGet_foldl formatTimeOrgaTZ (collection.getD []) [] key
  · exact keys_nodup_foldl formatTimeOrgaTZ (collection.getD []) [] (by simp)

/-- C2: on a scroll-to-bottom event of the webhook-logs list or of the
customer-wallets list, no fetch is issued while a load is in flight or when
currentPage is at least totalPages (absent metadata counting as 0/0), and an
issued fetch always requests exactly page currentPage + 1. -/
theorem onBottom_pagination_guard (metadata : Option PaginationMetadata)
    (loadInFlight : Bool) :
    (loadInFlight = true →
      webhookLogsOnBottomFetch metadata loadInFlight = none ∧
      customerWalletsOnBottomFetch metadata loadInFlight = none) ∧
    (metaTotalPages metadata ≤ metaCurrentPage metadata →
      webhookLogsOnBottomFetch metadata loadInFlight = none ∧
      customerWalletsOnBottomFetch metadata loadInFlight = none) ∧
    (∀ page,
      webhookLogsOnBottomFetch metadata loadInFlight = some page ∨
        customerWalletsOnBottomFetch metadata loadInFlight = some page →
      page = metaCurrentPage metadata + 1 ∧
        metaCurrentPage metadata < metaTotalPages metadata ∧ loadInFlight = false) := by
  unfold webhookLogsOnBottomFetch customerWalletsOnBottomFetch
  split
  case isTrue h =>
    obtain ⟨hlt, hld⟩ := h
    refine ⟨fun hl => ?_, fun hle => ?_, fun page hp => ?_⟩
    · rw [hl] at hld; cases hld
    · exact absurd hlt (not_lt.mpr hle)
    · rcases hp with hp | hp <;>
        exact ⟨(Option.some.injEq _ _ ▸ hp).symm, hlt, hld⟩
  case isFalse h =>
    refine ⟨fun _ => ⟨rfl, rfl⟩, fun _ => ⟨rfl, rfl⟩, fun page hp => ?_⟩
    rcases hp with hp | hp <;> cases hp

theorem determine_undef_left (x : JSBool) : determineCheckboxValue .undefined x = .undefined := by
  simp [determineCheckboxValue]

theorem determine_undef_right (x : JSBool) : determineCheckboxValue x .undefined = .undefined := by
  cases x <;> simp [determineCheckboxValue]

theorem determine_null_left (x : JSBool) : determineCheckboxValue .null x = x := by
  cases x <;> simp [determineCheckboxValue]

theorem determine_bool_left (b : Bool) (x : JSBool) :
    determineCheckboxValue (.bool b) x = if x = .bool b then .bool b else .undefined := by
  cases x with
  | undefined => simp [determineCheckboxValue]
  | null => simp [determineCheckboxValue]
  | bool c =>
    by_cases h : c = b
    · simp [determineCheckboxValue, h]
    · simp [determineCheckboxValue, h]
      exact fun hh => h hh.symm

theorem foldl_determine_undef (xs : List JSBool) :
    xs.foldl determineCheckboxValue .undefined = .undefined := by
  induction xs with
  | nil => rfl
  | cons x rest ih => simp [List.foldl_cons, determine_undef_left, ih]

theorem foldl_determine_bool (xs : List JSBool) (b : Bool) :
    xs.foldl determineCheckboxValue (.bool b) =
      if ∀ x ∈ xs, x = .bool b then .bool b else .undefined := by
  induction xs with
  | nil => simp
  | cons x rest ih =>
    simp only [List.foldl_cons, determine_bool_left]
    by_cases hx : x = .bool b <;>
      simp [hx, ih, foldl_determine_undef, List.forall_mem_cons]

theorem specAgg_eq_true (xs : List JSBool) (h : ∀ x ∈ xs, x = .bool true)
    (hne : xs ≠ []) : specAgg xs = .bool true := by
  unfold specAgg
  rw [if_neg hne, if_pos h]

theorem specAgg_eq_false (xs : List JSBool) (h : ∀ x ∈ xs, x = .bool false)
    (hne : xs ≠ []) : specAgg xs = .bool false := by
  unfold specAgg
  rw [if_neg hne]
  have hT : ¬∀ x ∈ xs, x = .bool true := by
    obtain ⟨x, hx⟩ := List.exists_mem_of_ne_nil xs hne
    intro hall
    have h1 := h x hx
    have h2 := hall x hx
    rw [h1] at h2
    simp at h2
  rw [if_neg hT, if_pos h]

theorem specAgg_eq_undef (xs : List JSBool) (hne : xs ≠ [])
    (hT : ¬∀ x ∈ xs, x = .bool true) (hF : ¬∀ x ∈ xs, x = .bool false) :
    specAgg xs = .undefined := by
  unfold specAgg
  rw [if_neg hne, if_neg hT, if_neg hF]

theorem specAgg_ne_null (xs : List JSBool) (hne : xs ≠ []) : specAgg xs ≠ .null := by
  unfold specAgg
  rw [if_neg hne]
  split
  · simp
  · split <;> simp

theorem specAgg_eq_bool_iff (xs : List JSBool) (hne : xs ≠ []) (b : Bool) :
    specAgg xs = .bool b ↔ ∀ x ∈ xs, x = .bool b := by
  constructor
  · intro hagg
    unfold specAgg at hagg
    rw [if_neg hne] at hagg
    by_cases hT : ∀ x ∈ xs, x = .bool true
    · rw [if_pos hT] at hagg
      cases b
      · simp at hagg
      · exact hT
    · rw [if_neg hT] at hagg
      by_cases hF : ∀ x ∈ xs, x = .bool false
      · rw [if_pos hF] at hagg
        cases b
        · exact hF
        · simp at hagg
      · rw [if_neg hF] at hagg
        simp at hagg
  · intro hall
    cases b
    · exact specAgg_eq_false _ hall hne
    · exact specAgg_eq_true _ hall hne

theorem foldDet_char (xs : List JSBool) (h : ∀ x ∈ xs, x ≠ .null) :
    foldDet xs = specAgg xs := by
  cases xs with
  | nil => rfl
  | cons x rest =>
    have hcons : x :: rest ≠ [] := by simp
    rw [foldDet, List.foldl_cons, determine_null_left]
    cases x with
    | null => exact absurd rfl (h _ (List.mem_cons_self _ _))
    | undefined =>
      rw [foldl_determine_undef]
      refine (specAgg_eq_undef _ hcons ?_ ?_).symm
      · intro hall
        simpa using hall _ (List.mem_cons_self _ _)
      · intro hall
        simpa using hall _ (List.mem_cons_self _ _)
    | bool b =>
      rw [foldl_determine_bool]
      by_cases hb : ∀ y ∈ rest, y = JSBool.bool b
      · rw [if_pos hb]
        have hAll : ∀ y ∈ JSBool.bool b :: rest, y = JSBool.bool b := by
          intro y hy
          rcases List.mem_cons.mp hy with hy | hy
          · exact hy
          · exact hb y hy
        cases b
        · exact (specAgg_eq_false _ hAll hcons).symm
        · exact (specAgg_eq_true _ hAll hcons).symm
      · rw [if_neg hb]
        refine (specAgg_eq_undef _ hcons ?_ ?_).symm
        · intro hall
          cases b
          · simpa using hall _ (List.mem_cons_self _ _)
          · exact hb fun y hy => hall y (List.mem_cons_of_mem _ hy)
        · intro hall
          cases b
          · exact hb fun y hy => hall y (List.mem_cons_of_mem _ hy)
          · simpa using hall _ (List.mem_cons_self _ _)

theorem groupFoldValue_eq (grouped : List (Option Bool)) :
    groupFoldValue grouped = foldDet (grouped.map jsOfOpt) := by
  unfold groupFoldValue foldDet
  rw [List.foldl_map]

theorem processChild_eq (value : JSBool) (child : FeeChild) :
    processChild value child = determineCheckboxValue value (childContribution child) := by
  cases child with
  | fromFee checked => cases checked <;> rfl
  | groupedFee grouped => rfl

theorem subscriptionCheckboxValue_eq (children : List FeeChild) :
    subscriptionCheckboxValue children = foldDet (children.map childContribution) := by
  unfold subscriptionCheckboxValue foldDet
  rw [List.foldl_map]
  have h : processChild = fun v c => determineCheckboxValue v (childContribution c) := by
    funext v c
    exact processChild_eq v c
  rw [h]

theorem jsOfOpt_ne_null (ob : Option Bool) : jsOfOpt ob ≠ .null := by
  cases ob <;> simp [jsOfOpt]

theorem jsOfOpt_eq_bool (ob : Option Bool) (b : Bool) :
    jsOfOpt ob = .bool b ↔ ob = some b := by
  cases ob <;> simp [jsOfOpt]

theorem childContribution_ne_null (child : FeeChild) (h : wellFormedChild child = true) :
    childContribution child ≠ .null := by
  cases child with
  | fromFee checked =>
    cases checked with
    | none => simp [wellFormedChild] at h
    | some b => simp [childContribution]
  | groupedFee grouped =>
    have hne : grouped ≠ [] := by
      intro hg
      subst hg
      simp [wellFormedChild] at h
    have hmapne : grouped.map jsOfOpt ≠ [] := by simpa using hne
    have hnull : ∀ x ∈ grouped.map jsOfOpt, x ≠ .null := by
      intro x hx
      obtain ⟨ob, _, rfl⟩ := List.mem_map.mp hx
      exact jsOfOpt_ne_null ob
    show groupFoldValue grouped ≠ .null
    rw [groupFoldValue_eq, foldDet_char _ hnull]
    exact specAgg_ne_null _ hmapne

theorem childContribution_eq_bool (child : FeeChild) (h : wellFormedChild child = true)
    (b : Bool) :
    childContribution child = .bool b ↔ ∀ leaf ∈ childLeaves child, leaf = some b := by
  cases child with
  | fromFee checked =>
    cases checked with
    | none => simp [wellFormedChild] at h
    | some c => simp [childContribution, childLeaves]
  | groupedFee grouped =>
    have hne : grouped ≠ [] := by
      intro hg
      subst hg
      simp [wellFormedChild] at h
    have hmapne : grouped.map jsOfOpt ≠ [] := by simpa using hne
    have hnull : ∀ x ∈ grouped.map jsOfOpt, x ≠ .null := by
      intro x hx
      obtain ⟨ob, _, rfl⟩ := List.mem_map.mp hx
      exact jsOfOpt_ne_null ob
    show groupFoldValue grouped = .bool b ↔ ∀ leaf ∈ childLeaves (.groupedFee grouped), leaf = some b
    rw [groupFoldValue_eq, foldDet_char _ hnull, specAgg_eq_bool_iff _ hmapne]
    constructor
    · intro hall leaf hleaf
      exact (jsOfOpt_eq_bool _ _).mp (hall (jsOfOpt leaf) (List.mem_map_of_mem _ hleaf))
    · intro hall x hx
      obtain ⟨ob, hob, rfl⟩ := List.mem_map.mp hx
      exact (jsOfOpt_eq_bool _ _).mpr (hall ob hob)

theorem leaves_cons (child : FeeChild) (rest : List FeeChild) :
    leaves (child :: rest) = childLeaves child ++ leaves rest := by
  cases child <;> rfl

theorem contribs_all_bool_iff (children : List FeeChild)
    (hwf : ∀ c ∈ children, wellFormedChild c = true) (b : Bool) :
    (∀ x ∈ children.map childContribution, x = .bool b) ↔
      ∀ leaf ∈ leaves children, leaf = some b := by
  induction children with
  | nil => simp [leaves]
  | cons child rest ih =>
    have hwfc := hwf child (List.mem_cons_self _ _)
    have hwfr : ∀ c ∈ rest, wellFormedChild c = true :=
      fun c hc => hwf c (List.mem_cons_of_mem _ hc)
    rw [leaves_cons, List.map_cons, List.forall_mem_cons, List.forall_mem_append,
      childContribution_eq_bool child hwfc b, ih hwfr]

theorem leaves_ne_nil (children : List FeeChild) (hne : children ≠ [])
    (hwf : ∀ c ∈ children, wellFormedChild c = true) : leaves children ≠ [] := by
  cases children with
  | nil => exact absurd rfl hne
  | cons child rest =>
    have hwfc := hwf child (List.mem_cons_self _ _)
    rw [leaves_cons]
    cases child with
    | fromFee checked => simp [childLeaves]
    | groupedFee grouped =>
      have hg : grouped ≠ [] := by
        intro hg
        subst hg
        simp [wellFormedChild] at hwfc
      simp [childLeaves, hg]

/-- C1 counterexample: a subscription whose single flat fee has an undefined
`checked` flag. The reducer routes it through the grouped-fee branch, whose
empty fold contributes `null`, so the aggregate is `null` where the claim
demands `undefined`; moreover the aggregate is not a pure function of the
leaf flags, since a grouped fee with the same single undefined leaf
aggregates to `undefined`. -/
theorem checkboxGroupValue_counterexample :
    subscriptionCheckboxValue [.fromFee none] = .null ∧
    claimedCheckboxValue [.fromFee none] = .undefined ∧
    leaves [FeeChild.fromFee none] = leaves [FeeChild.groupedFee [none]] ∧
    subscriptionCheckboxValue [.fromFee none] ≠
      subscriptionCheckboxValue [.groupedFee [none]] := by
  decide

/-- C1 (amended): provided the subscription has at least one fee, every flat
fee's `checked` flag is a boolean, and every grouped fee has at least one
entry, the aggregate checkbox value is the claimed pure function of the leaf
flags — `true` exactly when every leaf is checked, `false` exactly when no
leaf is (at least one existing), `undefined` otherwise — and
`determineCheckboxValue` combines pairs exactly as the claim's table states. -/
theorem checkboxGroupValue_amended (children : List FeeChild)
    (h1 : children ≠ []) (h2 : children.all wellFormedChild = true) :
    subscriptionCheckboxValue children = claimedCheckboxValue children ∧
    (∀ x, determineCheckboxValue .undefined x = .undefined) ∧
    (∀ x, determineCheckboxValue x .undefined = .undefined) ∧
    (∀ b, determineCheckboxValue .null (.bool b) = .bool b) ∧
    (∀ b c, b ≠ c → determineCheckboxValue (.bool b) (.bool c) = .undefined) ∧
    (∀ b, determineCheckboxValue (.bool b) (.bool b) = .bool b) := by
  have hwf : ∀ c ∈ children, wellFormedChild c = true := by
    simpa [List.all_eq_true] using h2
  refine ⟨?_, determine_undef_left, determine_undef_right,
    fun b => determine_null_left (.bool b), ?_, ?_⟩
  · have hcontribs : ∀ x ∈ children.map childContribution, x ≠ .null := by
      intro x hx
      obtain ⟨c, hc, rfl⟩ := List.mem_map.mp hx
      exact childContribution_ne_null c (hwf c hc)
    have hmapne : children.map childContribution ≠ [] := by simpa using h1
    have hlne : leaves children ≠ [] := leaves_ne_nil children h1 hwf
    rw [subscriptionCheckboxValue_eq, foldDet_char _ hcontribs]
    unfold claimedCheckboxValue
    by_cases hT : ∀ leaf ∈ leaves children, leaf = some true
    · rw [if_pos hT]
      exact (specAgg_eq_bool_iff _ hmapne true).mpr
        ((contribs_all_bool_iff children hwf true).mpr hT)
    · rw [if_neg hT]
      by_cases hF : ∀ leaf ∈ leaves children, leaf = some false
      · rw [if_pos ⟨hlne, hF⟩]
        exact (specAgg_eq_bool_iff _ hmapne false).mpr
          ((contribs_all_bool_iff children hwf false).mpr hF)
      · rw [if_neg (fun hc => hF hc.2)]
        refine specAgg_eq_undef _ hmapne ?_ ?_
        · intro hall
          exact hT ((contribs_all_bool_iff children hwf true).mp hall)
        · intro hall
          exact hF ((contribs_all_bool_iff children hwf false).mp hall)
  · intro b c hbc
    have hcb : ¬(JSBool.bool c = JSBool.bool b) := by simpa using Ne.symm hbc
    rw [determine_bool_left, if_neg hcb]
  · intro b
    rw [determine_bool_left, if_pos rfl]

/-- C1 witness: the amended aggregation theorem applied to a concrete
subscription with one checked flat fee and one grouped fee whose two leaves
disagree (one undefined), aggregating to indeterminate. -/
theorem checkboxGroupValue_amended_witness :
    subscriptionCheckboxValue
        [FeeChild.fromFee (some true), FeeChild.groupedFee [some true, none]] =
      claimedCheckboxValue
        [FeeChild.fromFee (some true), FeeChild.groupedFee [some true, none]] :=
  (checkboxGroupValue_amended
    [FeeChild.fromFee (some true), FeeChild.groupedFee [some true, none]]
    (by decide) (by decide)).1

end LagoFront
